import Mathlib

/-!
Verification development for the Support repository: a retrieval-augmented
question-answering pipeline (chunking, embedding, FAISS-style indexing,
retrieval, prompt assembly).  Strings are modelled as `List Char`; the
Python functions of the repository are embedded as executable Lean
definitions and the specification claims are settled as theorems about
those definitions.
-/

namespace Support

/-- ASCII whitespace: the character class used by Python's default
`str.split()` and `str.strip()` (space, tab, newline, carriage return,
vertical tab, form feed). -/
def isSpace (c : Char) : Bool :=
  c == ' ' || c == '\t' || c == '\n' || c == '\r' ||
    c == Char.ofNat 11 || c == Char.ofNat 12

/-- Accumulator version of Python `str.split()`: split on whitespace runs,
producing no empty words.  `acc` holds the current word reversed. -/
def splitWordsAux : List Char → List Char → List (List Char)
  | [], acc => if acc.isEmpty then [] else [acc.reverse]
  | c :: rest, acc =>
    if isSpace c then
      if acc.isEmpty then splitWordsAux rest []
      else acc.reverse :: splitWordsAux rest []
    else splitWordsAux rest (c :: acc)

/-- Python `text.split()` with no separator. -/
def splitWords (s : List Char) : List (List Char) := splitWordsAux s []

/-- Python `sep.join(parts)`. -/
def joinSep (sep : List Char) : List (List Char) → List Char
  | [] => []
  | [p] => p
  | p :: ps => p ++ sep ++ joinSep sep ps

/-- Python `" ".join(parts)`. -/
def joinWords (ws : List (List Char)) : List Char := joinSep [' '] ws

/-- Python `str.lstrip()` restricted to whitespace. -/
def lstrip : List Char → List Char
  | [] => []
  | c :: rest => if isSpace c then lstrip rest else c :: rest

/-- Python `str.rstrip()`. -/
def rstrip (s : List Char) : List Char := (lstrip s.reverse).reverse

/-- Python `str.strip()`. -/
def strip (s : List Char) : List Char := rstrip (lstrip s)

/-- Python slice `s[-k:]`.  For `k = 0` this is the whole string, because
`s[-0:]` is `s[0:]` in Python; otherwise it is the trailing
`min k (length s)` characters. -/
def pyTailSlice (k : Nat) (s : List Char) : List Char :=
  if k = 0 then s else s.drop (s.length - k)

/-- Number of non-whitespace characters of a string. -/
def nonWS (s : List Char) : Nat := (s.filter (fun c => !isSpace c)).length

/-- Total character count of a list of strings. -/
def sumLen (l : List (List Char)) : Nat := (l.map List.length).sum

/-- Python `s.startswith(pre)` for list strings. -/
def startsWith (pre s : List Char) : Bool := s.take pre.length == pre

/-! ## Word-window chunker: SQL/build/build_query.py `chunk_text` -/

/-- The loop of `chunk_text` (SQL/build/build_query.py lines 49-61).  The
state is the current window `cur` (a list of pieces joined by single
spaces, exactly Python's `cur` list), the running character estimate
`cur_chars` and the emitted chunks `out`.  When a word would overflow
`max_chars`, the window is closed (joined and stripped), a non-empty chunk
is appended, and the next window is seeded with the `overlap_chars` tail
slice of the closed chunk. -/
def chunkLoop (maxChars overlapChars : Nat) :
    List (List Char) → List (List Char) → Nat → List (List Char) → List (List Char)
  | [], cur, _cc, out =>
    if cur.isEmpty then out else out ++ [strip (joinWords cur)]
  | w :: ws, cur, cc, out =>
    if maxChars < cc + w.length + 1 then
      let chunk := strip (joinWords cur)
      let out' := if chunk.isEmpty then out else out ++ [chunk]
      let tl := if chunk.isEmpty then [] else pyTailSlice overlapChars chunk
      let cur' := if tl.isEmpty then [] else [tl]
      chunkLoop maxChars overlapChars ws (cur' ++ [w]) (tl.length + (w.length + 1)) out'
    else
      chunkLoop maxChars overlapChars ws (cur ++ [w]) (cc + (w.length + 1)) out

/-- SQL/build/build_query.py `chunk_text`: char-based word windows
approximating tokens at four characters each, with overlap seeding. -/
def chunk_text (text : List Char) (chunk_tokens : Nat := 700) (overlap : Nat := 120) :
    List (List Char) :=
  if text.isEmpty then []
  else
    (chunkLoop (chunk_tokens * 4) (overlap * 4) (splitWords text) [] 0 []).filter
      (fun c => !c.isEmpty)

/-- The overlap text actually injected into the chunk list: for every
consecutive pair, the seed of the later chunk, namely the leading-whitespace
stripped `overlap_chars` tail slice of the earlier chunk. -/
def injectedOverlap (k : Nat) : List (List Char) → Nat
  | a :: b :: rest => (lstrip (pyTailSlice k a)).length + injectedOverlap k (b :: rest)
  | _ => 0

/-- A word as produced by `splitWords`: non-empty and free of whitespace. -/
def IsWord (w : List Char) : Prop := w ≠ [] ∧ ∀ c ∈ w, isSpace c = false

/-- Every element of the list is a word. -/
def AllWords (ws : List (List Char)) : Prop := ∀ w ∈ ws, IsWord w

/-- Decomposition certificate for the output of the word-window loop: the
first chunk is one joined window of words, and every later chunk is the
stripped join of the `k`-tail-slice seed of the previous chunk with the
next window of words. -/
inductive WC (k : Nat) : List (List Char) → List (List Char) → Prop
  | nil : WC k [] []
  | first {ws : List (List Char)} (h : ws ≠ []) (hw : AllWords ws) :
      WC k ws [joinWords ws]
  | snoc {consumed chunks ws : List (List Char)}
      (prev : List Char) (pre : List (List Char))
      (hwc : WC k consumed chunks) (hlast : chunks = pre ++ [prev])
      (h : ws ≠ []) (hw : AllWords ws) :
      WC k (consumed ++ ws) (chunks ++ [strip (joinWords (pyTailSlice k prev :: ws))])

/-- Invariant of `chunkLoop` relating the words consumed so far to the
emitted chunks and the pending window. -/
def LoopInv (k : Nat) (consumed cur out : List (List Char)) : Prop :=
  (cur = [] ∧ consumed = [] ∧ out = [])
  ∨ (out = [] ∧ consumed = cur ∧ cur ≠ [] ∧ AllWords cur)
  ∨ (∃ done ws prev pre, consumed = done ++ ws ∧ WC k done out
      ∧ out = pre ++ [prev] ∧ ws ≠ [] ∧ AllWords ws
      ∧ cur = pyTailSlice k prev :: ws)

/-- The adjacency relation claimed for consecutive word-window chunks:
the later chunk starts with the leading-whitespace-stripped `k`-tail slice
of the earlier chunk. -/
def overlapPre (k : Nat) (a b : List Char) : Prop :=
  b.take (lstrip (pyTailSlice k a)).length = lstrip (pyTailSlice k a)

/-! ## Heading-aware chunker: SUPPORT/build/build_regard.py
`split_markdown_to_chunks` -/

/-- A chunk record of the markdown chunker: source file name, title (the
current H1 or the file name), the H2-H6 heading path, and the body text. -/
structure MDChunk where
  file : List Char
  title : List Char
  headings : List (List Char)
  text : List Char
deriving DecidableEq

/-- Python `text.replace "\r\n" "\n"`: left-to-right non-overlapping
replacement. -/
def replaceCRLF : List Char → List Char
  | [] => []
  | '\r' :: '\n' :: rest => '\n' :: replaceCRLF rest
  | c :: rest => c :: replaceCRLF rest

/-- What a pending run of `p` newlines emits under
`re.sub "\n\x7b3,\x7d" "\n\n"`: runs of three or more collapse to two. -/
def nlEmit (p : Nat) : List Char :=
  if 3 ≤ p then ['\n', '\n'] else List.replicate p '\n'

/-- Automaton for collapsing newline runs; `p` counts pending newlines. -/
def collapseNLAux : Nat → List Char → List Char
  | p, [] => nlEmit p
  | p, c :: rest =>
    if c == '\n' then collapseNLAux (p + 1) rest
    else nlEmit p ++ c :: collapseNLAux 0 rest

/-- Python `text.split "\n"`: split at every newline, keeping empty lines. -/
def splitOnNL : List Char → List (List Char)
  | [] => [[]]
  | c :: rest =>
    if c == '\n' then [] :: splitOnNL rest
    else
      match splitOnNL rest with
      | l :: ls => (c :: l) :: ls
      | [] => [[c]]

/-- Python `os.path.basename`: the part after the last path separator. -/
def basename (s : List Char) : List Char :=
  (s.reverse.takeWhile (fun c => c != '/')).reverse

/-- The header pattern of build_regard.py line 76 applied to the stripped
line: one to six leading number signs followed by at least one whitespace
character; the remainder, stripped, is the heading text.  Seven or more
number signs, or no whitespace after them, fail to parse (and the line is
then dropped). -/
def parseHeader (s : List Char) : Option (Nat × List Char) :=
  let hashes := s.takeWhile (fun c => c == '#')
  let rest := s.dropWhile (fun c => c == '#')
  if 1 ≤ hashes.length ∧ hashes.length ≤ 6 then
    match rest with
    | c :: _ => if isSpace c then some (hashes.length, strip rest) else none
    | [] => none
  else none

/-- Mutable state of the line scan in `split_markdown_to_chunks`. -/
structure MDState where
  inCode : Bool
  codeBuffer : List Char
  para : List Char
  h1 : Option (List Char)
  h2 : Option (List Char)
  h3 : Option (List Char)
  h4 : Option (List Char)
  h5 : Option (List Char)
  h6 : Option (List Char)
  chunks : List MDChunk

/-- Initial scanner state. -/
def initState : MDState :=
  ⟨false, [], [], none, none, none, none, none, none, []⟩

/-- The title of a chunk: the current H1 if truthy, else the base name of
the source file (Python `current_h1 or os.path.basename file_name`). -/
def titleOf (fileName : List Char) (st : MDState) : List Char :=
  match st.h1 with
  | some t => if t.isEmpty then basename fileName else t
  | none => basename fileName

/-- The H2-H6 heading path, keeping only truthy entries. -/
def truthyHeads (st : MDState) : List (List Char) :=
  ([st.h2, st.h3, st.h4, st.h5, st.h6].filterMap id).filter (fun t => !t.isEmpty)

/-- `finalize_paragraph`: emit the stripped paragraph as a chunk if it is
non-empty, with the current heading context as metadata. -/
def finalizeParagraph (fileName : List Char) (st : MDState) : MDState :=
  let ptext := strip st.para
  if ptext.isEmpty then st
  else
    { st with
      para := [],
      chunks := st.chunks ++
        [⟨basename fileName, titleOf fileName st, truthyHeads st, ptext⟩] }

/-- Update the heading context at the given level, clearing deeper levels. -/
def updateHeading (lvl : Nat) (t : List Char) (st : MDState) : MDState :=
  if lvl = 1 then
    { st with h1 := some t, h2 := none, h3 := none, h4 := none, h5 := none, h6 := none }
  else if lvl = 2 then
    { st with h2 := some t, h3 := none, h4 := none, h5 := none, h6 := none }
  else if lvl = 3 then { st with h3 := some t, h4 := none, h5 := none, h6 := none }
  else if lvl = 4 then { st with h4 := some t, h5 := none, h6 := none }
  else if lvl = 5 then { st with h5 := some t, h6 := none }
  else if lvl = 6 then { st with h6 := some t }
  else st

/-- Code fence marker test: `line.strip().startswith "```"`. -/
def isFenceLine (line : List Char) : Bool := startsWith "```".data (strip line)

/-- Numbered-list test, the pattern of build_regard.py line 146: one or
more digits followed by a dot, at the start of the left-stripped line. -/
def isNumbered (s : List Char) : Bool :=
  !(s.takeWhile Char.isDigit).isEmpty && (s.dropWhile Char.isDigit).take 1 == ['.']

/-- List-item test of build_regard.py line 146. -/
def isListLine (line : List Char) : Bool :=
  startsWith ['-'] (lstrip line) || startsWith ['*'] (lstrip line) ||
    isNumbered (lstrip line)

/-- Table-row test of build_regard.py line 149. -/
def isTableLine (line : List Char) : Bool := startsWith ['|'] (strip line)

/-- Hyphen-continuation test of build_regard.py line 154. -/
def endsWithHyphen (s : List Char) : Bool := s.reverse.take 1 == ['-']

/-- One iteration of the line scan of `split_markdown_to_chunks`
(build_regard.py lines 69-159). -/
def processLine (fileName : List Char) (st : MDState) (line : List Char) : MDState :=
  if !st.inCode && startsWith ['#'] (strip line) then
    let st := if !(strip st.para).isEmpty then finalizeParagraph fileName st else st
    match parseHeader (strip line) with
    | some (lvl, t) => updateHeading lvl t st
    | none => st
  else if isFenceLine line then
    if !st.inCode then
      let st := if !(strip st.para).isEmpty then finalizeParagraph fileName st else st
      { st with inCode := true, codeBuffer := strip line }
    else
      let buf := st.codeBuffer ++ '\n' :: strip line
      let st :=
        if !(strip buf).isEmpty then
          { st with chunks := st.chunks ++
              [⟨basename fileName, titleOf fileName st, truthyHeads st, buf⟩] }
        else st
      { st with codeBuffer := [], inCode := false }
  else if st.inCode then
    { st with codeBuffer := st.codeBuffer ++ '\n' :: line }
  else if (strip line).isEmpty then
    if !(strip st.para).isEmpty then finalizeParagraph fileName st else st
  else if isListLine line then
    { st with para := st.para ++ (if st.para.isEmpty then [] else ['\n']) ++ strip line }
  else if isTableLine line then
    { st with para := st.para ++ (if st.para.isEmpty then [] else ['\n']) ++ line }
  else if endsWithHyphen st.para then
    { st with para := st.para ++ strip line }
  else
    { st with para := st.para ++ (if st.para.isEmpty then [] else [' ']) ++ strip line }

/-- Sentence-final punctuation for the re-splitter. -/
def isSentEnd (c : Char) : Bool := c == '.' || c == '!' || c == '?'

/-- Head-of-accumulator test used by the sentence splitter; `acc` holds the
current segment reversed. -/
def sentEndHead (acc : List Char) : Bool :=
  match acc.head? with
  | some p => isSentEnd p
  | none => false

/-- Splitter for the pattern of build_regard.py line 176: split at each
whitespace run that follows sentence-final punctuation, dropping the
whitespace run.  The Bool flag records that the scanner is inside the
separating whitespace run just after a split. -/
def splitSentencesAux : Bool → List Char → List Char → List (List Char)
  | _, acc, [] => [acc.reverse]
  | skipWS, acc, c :: rest =>
    if skipWS && isSpace c then splitSentencesAux true acc rest
    else if isSpace c && sentEndHead acc then
      acc.reverse :: splitSentencesAux true [] rest
    else
      splitSentencesAux false (c :: acc) rest

/-- Sentence split of an oversized chunk's text. -/
def splitSentences (s : List Char) : List (List Char) := splitSentencesAux false [] s

/-- The sub-chunking loop of build_regard.py lines 177-203: accumulate
sentences into `sub` until the character limit would be exceeded, emit the
stripped accumulator, and seed the next accumulator with the trailing
`overlapChars` characters. -/
def refineLoop (charLimit overlapChars : Nat) (c : MDChunk) :
    List (List Char) → List Char → List MDChunk → List MDChunk
  | [], sub, acc =>
    let sub2 := strip sub
    if sub2.isEmpty then acc else acc ++ [{ c with text := sub2 }]
  | s :: rest, sub, acc =>
    if s.isEmpty then refineLoop charLimit overlapChars c rest sub acc
    else if !sub.isEmpty && charLimit < sub.length + s.length then
      let sub2 := strip sub
      let acc' := if sub2.isEmpty then acc else acc ++ [{ c with text := sub2 }]
      let overlap :=
        if 0 < overlapChars && 0 < sub2.length then pyTailSlice overlapChars sub2 else []
      refineLoop charLimit overlapChars c rest (overlap ++ ' ' :: s) acc'
    else
      refineLoop charLimit overlapChars c rest (sub ++ ' ' :: s) acc

/-- Re-split one chunk whose text exceeds the character limit
(build_regard.py lines 169-203). -/
def refineChunk (charLimit overlapChars : Nat) (c : MDChunk) : List MDChunk :=
  if c.text.length ≤ charLimit then [c]
  else refineLoop charLimit overlapChars c (splitSentences c.text) [] []

/-- SUPPORT/build/build_regard.py `split_markdown_to_chunks`: normalize
line endings, collapse blank-line runs, scan line by line with the heading
and code-fence state machine, then re-split oversized chunks at sentence
boundaries with overlap. -/
def split_markdown_to_chunks (text fileName : List Char)
    (charLimit : Nat := 1200) (overlapChars : Nat := 100) : List MDChunk :=
  let lines := splitOnNL (collapseNLAux 0 (replaceCRLF text))
  let st := lines.foldl (processLine fileName) initState
  let st := if !(strip st.para).isEmpty then finalizeParagraph fileName st else st
  (st.chunks.map (refineChunk charLimit overlapChars)).flatten

/-! ## Retrieval side: SUPPORT/ask.py -/

/-- A corpus record (one parsed line of corpus.jsonl) and equally the hit
dictionary built from it in `ask_question`.  Fields read with `dict.get`
and guarded by truthiness in the code are `Option`; `text`, always written
by the builder and used directly, is a plain string. -/
structure HitRec where
  id : Option (List Char)
  file : Option (List Char)
  title : Option (List Char)
  headings : Option (List (List Char))
  text : List Char
deriving DecidableEq

/-- The hit dictionary built from a corpus record in ask_question lines
181-187 (a field-by-field copy). -/
def mkHit (r : HitRec) : HitRec :=
  { id := r.id, file := r.file, title := r.title, headings := r.headings, text := r.text }

/-- The dedup key of SUPPORT/ask.py line 147: `h.get "file" or "unknown"`
(a missing or empty file name falls back to the string unknown). -/
def srcOf (h : HitRec) : List Char :=
  match h.file with
  | some f => if f.isEmpty then "unknown".data else f
  | none => "unknown".data

/-- The loop of `dedupe_by_source`, with the `bucket` counter dictionary
modelled as a function. -/
def dedupeAux (cap : Nat) : List HitRec → (List Char → Nat) → List HitRec
  | [], _ => []
  | h :: hs, bucket =>
    let src := srcOf h
    let n := bucket src
    if n < cap then h :: dedupeAux cap hs (fun s => if s = src then n + 1 else bucket s)
    else dedupeAux cap hs bucket

/-- SUPPORT/ask.py `dedupe_by_source`: walk hits in rank order keeping at
most `per_source_cap` per source key. -/
def dedupe_by_source (hits : List HitRec) (per_source_cap : Nat := 2) : List HitRec :=
  dedupeAux per_source_cap hits (fun _ => 0)

/-- Python `text.replace "\n\n" "\n"`: left-to-right non-overlapping. -/
def replaceNN : List Char → List Char
  | '\n' :: '\n' :: rest => '\n' :: replaceNN rest
  | c :: rest => c :: replaceNN rest
  | [] => []

/-- Decimal rendering of a natural number, as Python `str`. -/
def natStr (n : Nat) : List Char := Nat.toDigits 10 n

/-- One labelled context block of `build_prompt` (SUPPORT/ask.py lines
112-117): the header `[n] title — heading path` followed by the chunk body
with double newlines collapsed. -/
def renderBlock (i : Nat) (c : HitRec) : List Char :=
  let title := c.title.getD []
  let heads := joinSep " > ".data (c.headings.getD [])
  let header := '[' :: (natStr i ++ ']' :: ' ' :: title) ++
    (if heads.isEmpty then [] else " — ".data ++ heads)
  header ++ '\n' :: replaceNN (strip c.text)

/-- The block-accumulation loop of `build_prompt` (SUPPORT/ask.py lines
110-120): accept blocks while the running total stays within the budget,
but never break before the first block has been accepted. -/
def promptBlocksAux (maxCtx : Nat) :
    List HitRec → Nat → Nat → List (List Char) → List (List Char)
  | [], _i, _total, blocks => blocks
  | c :: cs, i, total, blocks =>
    let block := renderBlock i c
    if maxCtx < total + block.length ∧ blocks ≠ [] then blocks
    else promptBlocksAux maxCtx cs (i + 1) (total + block.length) (blocks ++ [block])

/-- The accepted context blocks of `build_prompt`. -/
def promptBlocks (maxCtx : Nat) (contexts : List HitRec) : List (List Char) :=
  promptBlocksAux maxCtx contexts 1 0 []

/-- The fixed instruction preamble of `build_prompt`. -/
def instrText : List Char :=
  ("You are an internal support assistant.\n" ++
   "Answer the question using ONLY the Context. If the answer is not in the context, say you don\x27t know.\n" ++
   "Be concise but complete. Do not invent facts. After the answer, list the sources by their [n] labels.\n").data

/-- SUPPORT/ask.py `build_prompt`: greedily packed context blocks joined by
a fixed separator, wrapped in the instruction preamble and the question. -/
def build_prompt (question : List Char) (contexts : List HitRec)
    (max_ctx_chars : Nat := 2600) : List Char :=
  let ctx := joinSep "\n\n---\n\n".data (promptBlocks max_ctx_chars contexts)
  instrText ++ "\nContext:\n".data ++ ctx ++ "\n\nQuestion: ".data ++ question ++
    "\n\nAnswer:".data

/-- The numbered block sequence rendered from a context list starting at
label `i` (what the loop would render with no budget). -/
def renderedFrom (i : Nat) : List HitRec → List (List Char)
  | [] => []
  | c :: cs => renderBlock i c :: renderedFrom (i + 1) cs

/-! ## Vector index model (faiss IndexFlatIP) -/

/-- A flat inner-product index: dimension plus the stored vector rows.
Scalars are modelled as rationals. -/
structure FaissIndex where
  d : Nat
  vectors : List (List ℚ)
deriving DecidableEq

/-- faiss `index.ntotal`. -/
def FaissIndex.ntotal (ix : FaissIndex) : Nat := ix.vectors.length

/-- A two-dimensional numpy array: rows plus the column count of its shape
(kept separately so a 0-row matrix still has a column count). -/
structure NDMat where
  rows : List (List ℚ)
  cols : Nat
deriving DecidableEq

/-- Inner product of two rows. -/
def dotQ (a b : List ℚ) : ℚ := ((a.zip b).map (fun p => p.1 * p.2)).sum

/-- Insertion into a score-descending list. -/
def insertDesc (p : ℚ × ℤ) : List (ℚ × ℤ) → List (ℚ × ℤ)
  | [] => [p]
  | q :: rest => if q.1 < p.1 then p :: q :: rest else q :: insertDesc p rest

/-- Sort score-index pairs by descending score. -/
def sortDesc (l : List (ℚ × ℤ)) : List (ℚ × ℤ) := l.foldr insertDesc []

/-- Model of faiss `IndexFlatIP.search` on one query row: positions of the
`k` largest inner products in descending score order, padded with label -1
when `k` exceeds the number of stored vectors (as faiss reports missing
neighbours). -/
def ipTopK (ix : FaissIndex) (q : List ℚ) (k : Nat) : List ℤ :=
  let ids := ((sortDesc ((ix.vectors.enum).map
      (fun p => (dotQ q p.2, (p.1 : ℤ))))).take k).map Prod.snd
  ids ++ List.replicate (k - ids.length) (-1)

/-- Model of the faiss Python wrapper's `search` entry: the library itself
only has a bare dimension assertion - its error message carries no
dimension values - before scanning. -/
def faissLibSearch (ix : FaissIndex) (q : NDMat) (k : Nat) :
    Except (List Char) (List ℤ) :=
  if q.cols ≠ ix.d then .error "AssertionError".data
  else .ok (ipTopK ix (q.rows.headD []) k)

/-- The dimension-mismatch message of SUPPORT/ask.py lines 138-139. -/
def dimMsg (dq di : Nat) : List Char :=
  "Query embedding dim ".data ++ natStr dq ++ " != index dim ".data ++ natStr di ++
    ". Check EMBED_MODEL; it must match the model used to build the index.".data

/-- SUPPORT/ask.py `search`: explicit dimension guard naming both
dimensions, then the inner-product search.  The query arrives as a 1-row
matrix (the 1-D reshape of line 135 has already happened for matrix
input). -/
def search (ix : FaissIndex) (query_vec : NDMat) (top_k : Nat) :
    Except (List Char) (List ℤ) :=
  if query_vec.cols ≠ ix.d then .error (dimMsg query_vec.cols ix.d)
  else faissLibSearch ix query_vec top_k

/-- SUPPORT/web.py search route lines 169-171: the query is passed to the
library search directly, with no dimension check of the route's own. -/
def webRouteSearch (ix : FaissIndex) (qvec : NDMat) (top_k : Nat) :
    Except (List Char) (List ℤ) :=
  faissLibSearch ix qvec top_k

/-! ## Hit collection with the defensive bounds check -/

/-- Python list indexing `l[i]`: negative indices wrap once, anything else
out of range raises IndexError. -/
def pyIndex (l : List HitRec) (i : ℤ) : Except (List Char) HitRec :=
  let j : ℤ := if i < 0 then i + l.length else i
  if 0 ≤ j ∧ j < (l.length : ℤ) then
    match l.get? j.toNat with
    | some r => .ok r
    | none => .error "list index out of range".data
  else .error "list index out of range".data

/-- SUPPORT/ask.py ask_question lines 176-187: walk the returned positions
in order, skipping any position below zero or at least the corpus length
before the corpus list is ever indexed. -/
def collectHits (positions : List ℤ) (corpus : List HitRec) :
    Except (List Char) (List HitRec) :=
  match positions with
  | [] => .ok []
  | pos :: rest =>
    if pos < 0 ∨ (corpus.length : ℤ) ≤ pos then collectHits rest corpus
    else do
      let r ← pyIndex corpus pos
      let hits ← collectHits rest corpus
      .ok (mkHit r :: hits)

/-- Reference form of the hit collection: keep exactly the in-range
positions, looked up with the total `get?`. -/
def collectHitsSafe (positions : List ℤ) (corpus : List HitRec) : List HitRec :=
  positions.filterMap fun pos =>
    if 0 ≤ pos ∧ pos < (corpus.length : ℤ) then (corpus.get? pos.toNat).map mkHit
    else none

/-! ## Index directory loading -/

/-- An index directory as `load_index_and_corpus` sees it: its path name,
which of the two required artifacts exist, the stored index, and the parse
result of each corpus.jsonl line (`none` marks a line whose JSON parse
fails and is skipped). -/
structure IndexDir where
  name : List Char
  hasFaiss : Bool
  hasCorpus : Bool
  faissIndex : FaissIndex
  corpusLines : List (Option HitRec)
deriving DecidableEq

/-- The required artifact names of SUPPORT/ask.py line 40. -/
def requiredFiles : List (List Char) := ["chunks.faiss".data, "corpus.jsonl".data]

/-- Existence test of one required file in the directory model. -/
def fileExists (d : IndexDir) (f : List Char) : Bool :=
  if f = "chunks.faiss".data then d.hasFaiss
  else if f = "corpus.jsonl".data then d.hasCorpus
  else false

/-- SUPPORT/ask.py `ensure_files`: raise FileNotFoundError listing the
missing artifacts, by name, in the message. -/
def ensure_files (d : IndexDir) : Except (List Char) Unit :=
  let missing := requiredFiles.filter (fun f => !fileExists d f)
  if missing.isEmpty then .ok ()
  else .error ("Missing files in ".data ++ d.name ++ ": ".data ++ joinSep ", ".data missing)

/-- SUPPORT/ask.py `load_index_and_corpus`: check artifacts, read the
index, parse the corpus lines (skipping bad JSON), and return the pair;
the Bool records whether the corpus-size-versus-ntotal warning was logged
(the mismatch is never an error). -/
def load_index_and_corpus (d : IndexDir) :
    Except (List Char) (FaissIndex × List HitRec × Bool) :=
  match ensure_files d with
  | .error e => .error e
  | .ok _ =>
    let corpus := d.corpusLines.filterMap id
    .ok (d.faissIndex, corpus, corpus.length != d.faissIndex.ntotal)

/-! ## Embedding client -/

/-- A transport-level response of the embedding endpoint: HTTP status, the
raw body text (used in error messages), and the parsed embeddings field. -/
structure EmbedResp where
  status : Nat
  text : List Char
  embeddings : Option (List (List ℚ))

/-- SUPPORT/ask.py `ollama_embed_texts` over an abstract transport `net`
(the POST to /api/embed): the empty-input case returns `np.zeros (0, 1)`
before `net` is ever consulted; otherwise the response is validated and
converted to a matrix. -/
def ollama_embed_texts (net : List (List Char) → EmbedResp)
    (texts : List (List Char)) : Except (List Char) NDMat :=
  if texts.isEmpty then .ok ⟨[], 1⟩
  else
    let r := net texts
    if r.status ≠ 200 then
      .error ("Embed error ".data ++ natStr r.status ++ ": ".data ++ r.text)
    else
      match r.embeddings with
      | none => .error "Empty embeddings returned from Ollama.".data
      | some embs =>
        if embs.isEmpty || (embs.headD []).isEmpty then
          .error "Empty embeddings returned from Ollama.".data
        else .ok ⟨embs, (embs.headD []).length⟩

/-! ## ask_question -/

/-- One configured project: lookup key, index directory, citation base. -/
structure ProjectCfg where
  key : List Char
  dir : IndexDir
  siteBase : List Char

/-- The environment `ask_question` runs in: the project table and the two
remote services (embedding transport and answer generation). -/
structure AskEnv where
  projects : List ProjectCfg
  net : List (List Char) → EmbedResp
  generate : List Char → Except (List Char) (List Char)

/-- The structured result dictionary of `ask_question`: either an error
entry or an answer with its source URLs. -/
inductive AskResult where
  | err (msg : List Char)
  | answered (answer : List Char) (sources : List (List Char))
deriving DecidableEq

/-- Project lookup (`project in PROJECTS`). -/
def lookupProject (ps : List ProjectCfg) (key : List Char) : Option ProjectCfg :=
  ps.find? (fun p => p.key == key)

/-- Replace the first underscore by a colon (ask.py line 101). -/
def replaceFirstUnderscore : List Char → List Char
  | [] => []
  | c :: rest => if c == '_' then ':' :: rest else c :: replaceFirstUnderscore rest

/-- SUPPORT/ask.py `make_url`: strip a case-insensitive `.md` extension,
turn the first underscore into a namespace separator, prefix the base. -/
def make_url (siteBase srcFile : List Char) : List Char :=
  let name :=
    if ".md".data.isSuffixOf (srcFile.map Char.toLower) then
      srcFile.take (srcFile.length - 3)
    else srcFile
  siteBase ++ replaceFirstUnderscore name

/-- The used-files pass of ask_question lines 201-207: first occurrence of
each truthy file name, in hit order. -/
def usedFilesAux : List HitRec → List (List Char) → List (List Char)
  | [], _ => []
  | h :: hs, seen =>
    match h.file with
    | some f =>
      if !f.isEmpty && !seen.contains f then f :: usedFilesAux hs (f :: seen)
      else usedFilesAux hs seen
    | none => usedFilesAux hs seen

/-- The body of the `try` block of `ask_question` (SUPPORT/ask.py lines
161-214).  Any `.error` corresponds to a raised exception; the early
unknown-project return is a normal return of an error dictionary. -/
def askBody (env : AskEnv) (project question : List Char)
    (topk per_source_cap : Nat) : Except (List Char) AskResult :=
  match lookupProject env.projects project with
  | none => .ok (.err ("Unknown project: ".data ++ project))
  | some cfg => do
    let _ ← ensure_files cfg.dir
    let (index, corpus, _warned) ← load_index_and_corpus cfg.dir
    let qmat ← ollama_embed_texts env.net [question]
    let positions ← search index qmat topk
    let hits0 ← collectHits positions corpus
    let hits := dedupe_by_source hits0 per_source_cap
    if hits.isEmpty then
      pure (.answered "No relevant context found.".data [])
    else do
      let prompt := build_prompt question hits
      let answer ← env.generate prompt
      let urls := (usedFilesAux hits []).map (make_url cfg.siteBase)
      pure (.answered (strip answer) urls)

/-- SUPPORT/ask.py `ask_question`: the whole body runs inside try/except,
so every raised error becomes a structured error-dictionary result. -/
def ask_question (env : AskEnv) (project question : List Char)
    (topk : Nat := 8) (per_source_cap : Nat := 2) : AskResult :=
  match askBody env project question topk per_source_cap with
  | .ok r => r
  | .error e => .err e

/-! ## Build-time vector handling (claim C1) -/

/-- Row-wise L2 norm, `np.linalg.norm` on one row, over the reals. -/
noncomputable def l2norm (row : List ℝ) : ℝ :=
  Real.sqrt ((row.map (fun x => x ^ 2)).sum)

/-- The specification's normalization policy, in its own words: divide
each entry of a row by the row's L2 norm plus a small epsilon. -/
noncomputable def specNormalizeRow (eps : ℝ) (row : List ℝ) : List ℝ :=
  row.map (fun x => x / (l2norm row + eps))

/-- SQL/build/build_query.py lines 266-268: per-row norms with 1e-12
added, then rows divided by them, before indexing. -/
noncomputable def queryBuildRows (X : List (List ℝ)) : List (List ℝ) :=
  X.map (fun row => row.map (fun x => x / (l2norm row + 1 / 10 ^ 12)))

/-- SUPPORT/build/build_regard.py lines 284-291: the embedding rows are
converted to an array and added to IndexFlatIP exactly as returned by the
embedding service - no normalization step exists in this builder. -/
def regardBuildRows (X : List (List ℝ)) : List (List ℝ) := X

/-! ## Concrete sample inputs used by the witnesses -/

/-- A directory whose corpus.jsonl exists but whose chunks.faiss is
absent. -/
def sampleBrokenDir : IndexDir := ⟨"d".data, false, true, ⟨2, [[1, 0], [0, 1]]⟩, []⟩

/-- An environment holding one project over that directory, with trivial
remote services. -/
def sampleEnv : AskEnv :=
  ⟨[⟨"p".data, sampleBrokenDir, "b".data⟩],
   fun _ => ⟨200, [], some [[1, 0]]⟩,
   fun _ => Except.ok "ans".data⟩

/-! ## String kit lemmas -/

theorem lstrip_length_le (s : List Char) : (lstrip s).length ≤ s.length := by
  induction s with
  | nil => simp [lstrip]
  | cons c t ih =>
    by_cases h : isSpace c
    · simp only [lstrip, h, if_true]
      exact ih.trans (by simp)
    · simp [lstrip, h]

theorem lstrip_eq_self_of_length (s : List Char)
    (h : (lstrip s).length = s.length) : lstrip s = s := by
  induction s with
  | nil => simp [lstrip]
  | cons c t ih =>
    by_cases hc : isSpace c
    · exfalso
      have := lstrip_length_le t
      simp only [lstrip, hc, if_true] at h
      simp only [List.length_cons] at h
      omega
    · simp [lstrip, hc]

theorem head_lstrip {s : List Char} {c : Char} {t : List Char}
    (h : lstrip s = c :: t) : isSpace c = false := by
  induction s with
  | nil => simp [lstrip] at h
  | cons a u ih =>
    by_cases ha : isSpace a
    · simp only [lstrip, ha, if_true] at h
      exact ih h
    · simp only [lstrip, ha, if_false] at h
      cases h
      simpa using ha

theorem lstrip_append {a : List Char} (b : List Char) (h : lstrip a ≠ []) :
    lstrip (a ++ b) = lstrip a ++ b := by
  induction a with
  | nil => simp [lstrip] at h
  | cons c t ih =>
    by_cases hc : isSpace c
    · simp only [lstrip, hc, if_true] at h ⊢
      exact ih h
    · simp [lstrip, hc]

theorem lstrip_idem (s : List Char) : lstrip (lstrip s) = lstrip s := by
  induction s with
  | nil => simp [lstrip]
  | cons c t ih =>
    by_cases hc : isSpace c
    · simpa [lstrip, hc] using ih
    · simp [lstrip, hc]

theorem lstrip_eq_self_of_head {s : List Char}
    (h : ∀ c, s.head? = some c → isSpace c = false) : lstrip s = s := by
  cases s with
  | nil => simp [lstrip]
  | cons c t => simp [lstrip, h c rfl]

theorem nonWS_lstrip (s : List Char) : nonWS (lstrip s) = nonWS s := by
  induction s with
  | nil => simp [lstrip]
  | cons c t ih =>
    by_cases hc : isSpace c
    · simpa [lstrip, hc, nonWS] using ih
    · simp [lstrip, hc]

theorem nonWS_reverse (s : List Char) : nonWS s.reverse = nonWS s := by
  simp [nonWS, List.filter_reverse]

theorem nonWS_rstrip (s : List Char) : nonWS (rstrip s) = nonWS s := by
  rw [rstrip, nonWS_reverse, nonWS_lstrip, nonWS_reverse]

theorem nonWS_strip (s : List Char) : nonWS (strip s) = nonWS s := by
  simp [strip, nonWS_rstrip, nonWS_lstrip]

theorem nonWS_append (a b : List Char) : nonWS (a ++ b) = nonWS a + nonWS b := by
  simp [nonWS, List.filter_append]

theorem lstrip_ne_nil_of_nonWS {s : List Char} (h : 0 < nonWS s) : lstrip s ≠ [] := by
  intro hnil
  have h2 := nonWS_lstrip s
  rw [hnil] at h2
  have h3 : nonWS ([] : List Char) = 0 := rfl
  omega

theorem nonWS_pos_of_mem {s : List Char} {c : Char} (hc : c ∈ s)
    (hns : isSpace c = false) : 0 < nonWS s := by
  have : c ∈ s.filter (fun c => !isSpace c) := by
    rw [List.mem_filter]
    exact ⟨hc, by simp [hns]⟩
  have := List.length_pos_of_mem this
  simpa [nonWS] using this

theorem rstrip_length_le (s : List Char) : (rstrip s).length ≤ s.length := by
  have := lstrip_length_le s.reverse
  simpa [rstrip] using this

theorem rstrip_idem (s : List Char) : rstrip (rstrip s) = rstrip s := by
  simp [rstrip, List.reverse_reverse, lstrip_idem]

theorem rstrip_eq_self_of_getLast {s : List Char}
    (h : ∀ c, s.getLast? = some c → isSpace c = false) : rstrip s = s := by
  have hrev : lstrip s.reverse = s.reverse := by
    apply lstrip_eq_self_of_head
    intro c hc
    exact h c (by rwa [List.head?_reverse] at hc)
  simp [rstrip, hrev]

theorem getLast_not_space_of_rstrip_eq_self {s : List Char} (h : rstrip s = s) :
    ∀ c, s.getLast? = some c → isSpace c = false := by
  intro c hc
  have hrev : lstrip s.reverse = s.reverse := by
    have := congrArg List.reverse h
    simpa [rstrip] using this
  rw [← List.head?_reverse] at hc
  cases hr : s.reverse with
  | nil => rw [hr] at hc; simp at hc
  | cons a t =>
    rw [hr] at hc hrev
    simp only [List.head?] at hc
    cases hc
    exact head_lstrip hrev

theorem strip_eq_self_parts {s : List Char} (h : strip s = s) :
    lstrip s = s ∧ rstrip s = s := by
  have h1 : lstrip s = s := by
    apply lstrip_eq_self_of_length
    have e1 := lstrip_length_le s
    have e2 := rstrip_length_le (lstrip s)
    have : (strip s).length = s.length := by rw [h]
    simp only [strip] at this
    omega
  refine ⟨h1, ?_⟩
  have : strip s = rstrip s := by rw [strip, h1]
  rw [← this, h]

theorem lstrip_suffix (s : List Char) : ∃ t, t ++ lstrip s = s := by
  induction s with
  | nil => exact ⟨[], rfl⟩
  | cons c u ih =>
    by_cases hc : isSpace c
    · obtain ⟨t, ht⟩ := ih
      exact ⟨c :: t, by simp [lstrip, hc, ht]⟩
    · exact ⟨[], by simp [lstrip, hc]⟩

theorem rstrip_prefix (s : List Char) : ∃ t, rstrip s ++ t = s := by
  obtain ⟨t, ht⟩ := lstrip_suffix s.reverse
  refine ⟨t.reverse, ?_⟩
  have := congrArg List.reverse ht
  simpa [rstrip] using this

theorem strip_idem (s : List Char) : strip (strip s) = strip s := by
  have hl : lstrip (strip s) = strip s := by
    apply lstrip_eq_self_of_head
    intro c hc
    obtain ⟨u, hu⟩ := rstrip_prefix (lstrip s)
    have hu' : strip s ++ u = lstrip s := hu
    have hhead : (lstrip s).head? = some c := by
      rw [← hu']
      cases hss : strip s with
      | nil => rw [hss] at hc; simp at hc
      | cons a b =>
        rw [hss] at hc
        simp only [List.cons_append, List.head?] at hc ⊢
        exact hc
    cases hls : lstrip s with
    | nil => rw [hls] at hhead; simp at hhead
    | cons a b =>
      rw [hls] at hhead
      simp only [List.head?, Option.some.injEq] at hhead
      subst hhead
      exact head_lstrip hls
  show rstrip (lstrip (strip s)) = strip s
  rw [hl, strip, rstrip_idem]

theorem strip_eq_self_of {u : List Char}
    (h1 : ∀ c, u.head? = some c → isSpace c = false)
    (h2 : ∀ c, u.getLast? = some c → isSpace c = false) : strip u = u := by
  have hl : lstrip u = u := lstrip_eq_self_of_head h1
  show rstrip (lstrip u) = u
  rw [hl]
  exact rstrip_eq_self_of_getLast h2

/-! ## Tail slice and join lemmas -/

theorem pyTailSlice_ne_nil {s : List Char} (k : Nat) (h : s ≠ []) :
    pyTailSlice k s ≠ [] := by
  unfold pyTailSlice
  by_cases hk : k = 0
  · simpa [hk] using h
  · simp only [hk, if_false]
    have hlen : 0 < s.length := List.length_pos.mpr h
    intro hd
    have := congrArg List.length hd
    simp only [List.length_drop, List.length_nil] at this
    omega

theorem getLast?_drop {α : Type} (s : List α) (n : Nat) (h : n < s.length) :
    (s.drop n).getLast? = s.getLast? := by
  induction s generalizing n with
  | nil => simp at h
  | cons c t ih =>
    cases n with
    | zero => simp
    | succ m =>
      simp only [List.length_cons] at h
      have hm : m < t.length := by omega
      have ht : t ≠ [] := by
        intro he
        rw [he] at hm
        simp at hm
      rw [List.drop_succ_cons, ih m hm]
      cases t with
      | nil => exact absurd rfl ht
      | cons a b => exact (List.getLast?_cons_cons).symm

theorem pyTailSlice_getLast? {s : List Char} (k : Nat) (h : s ≠ []) :
    (pyTailSlice k s).getLast? = s.getLast? := by
  unfold pyTailSlice
  by_cases hk : k = 0
  · simp [hk]
  · simp only [hk, if_false]
    have hlen : 0 < s.length := List.length_pos.mpr h
    exact getLast?_drop s (s.length - k) (by omega)

theorem joinWords_nil : joinWords [] = [] := rfl

theorem joinWords_single (a : List Char) : joinWords [a] = a := rfl

theorem joinWords_cons₂ (a b : List Char) (t : List (List Char)) :
    joinWords (a :: b :: t) = a ++ ' ' :: joinWords (b :: t) := by
  simp [joinWords, joinSep]

theorem sumLen_le_joinWords_length (ws : List (List Char)) :
    sumLen ws ≤ (joinWords ws).length := by
  induction ws with
  | nil => simp [sumLen, joinWords_nil]
  | cons a t ih =>
    cases t with
    | nil => simp [sumLen, joinWords_single]
    | cons b u =>
      rw [joinWords_cons₂]
      simp only [sumLen, List.map_cons, List.sum_cons, List.length_append,
        List.length_cons] at ih ⊢
      omega

theorem nonWS_joinWords {ws : List (List Char)} (hw : AllWords ws) :
    nonWS (joinWords ws) = sumLen ws := by
  induction ws with
  | nil => simp [joinWords_nil, sumLen, nonWS]
  | cons a t ih =>
    have ha : IsWord a := hw a (by simp)
    have hall : nonWS a = a.length := by
      unfold nonWS
      rw [List.filter_eq_self.mpr]
      intro c hc
      simp [ha.2 c hc]
    cases t with
    | nil => simp [joinWords_single, sumLen, hall]
    | cons b u =>
      rw [joinWords_cons₂, nonWS_append]
      have ht : AllWords (b :: u) := fun w hw' => hw w (by simp [hw'])
      have : nonWS (' ' :: joinWords (b :: u)) = nonWS (joinWords (b :: u)) := by
        simp [nonWS, List.filter_cons, isSpace]
      rw [this, ih ht, hall]
      simp [sumLen]

theorem joinWords_ne_nil {ws : List (List Char)} (h : ws ≠ []) (hw : AllWords ws) :
    joinWords ws ≠ [] := by
  intro he
  cases ws with
  | nil => exact h rfl
  | cons a t =>
    have ha : IsWord a := hw a (by simp)
    cases t with
    | nil =>
      rw [joinWords_single] at he
      exact ha.1 he
    | cons b u =>
      rw [joinWords_cons₂] at he
      have hlen := congrArg List.length he
      simp only [List.length_append, List.length_cons, List.length_nil] at hlen
      omega

theorem joinWords_head? {a : List Char} (t : List (List Char)) (ha : a ≠ []) :
    (joinWords (a :: t)).head? = a.head? := by
  cases t with
  | nil => rw [joinWords_single]
  | cons b u =>
    rw [joinWords_cons₂]
    cases a with
    | nil => exact absurd rfl ha
    | cons c d => simp

theorem joinWords_getLast_not_space {ws : List (List Char)} (hw : AllWords ws)
    (h : ws ≠ []) : ∀ c, (joinWords ws).getLast? = some c → isSpace c = false := by
  induction ws with
  | nil => exact absurd rfl h
  | cons a t ih =>
    intro c hc
    cases t with
    | nil =>
      rw [joinWords_single] at hc
      have ha : IsWord a := hw a (by simp)
      exact ha.2 c (List.mem_of_mem_getLast? (by simp [hc]))
    | cons b u =>
      rw [joinWords_cons₂, List.getLast?_append_cons] at hc
      have ht : AllWords (b :: u) := fun w hw' => hw w (by simp [hw'])
      have hne : joinWords (b :: u) ≠ [] := joinWords_ne_nil (by simp) ht
      refine ih ht (by simp) c ?_
      cases hj : joinWords (b :: u) with
      | nil => exact absurd hj hne
      | cons x y => rw [hj] at hc; rwa [List.getLast?_cons_cons] at hc

theorem strip_joinWords {ws : List (List Char)} (hw : AllWords ws) (h : ws ≠ []) :
    strip (joinWords ws) = joinWords ws := by
  apply strip_eq_self_of
  · intro c hc
    cases ws with
    | nil => exact absurd rfl h
    | cons a t =>
      have ha : IsWord a := hw a (by simp)
      rw [joinWords_head? t ha.1] at hc
      exact ha.2 c (List.mem_of_mem_head? (by simp [hc]))
  · exact joinWords_getLast_not_space hw h

/-! ## splitWords lemmas -/

theorem splitWordsAux_allWords :
    ∀ (s acc : List Char), (∀ c ∈ acc, isSpace c = false) →
      AllWords (splitWordsAux s acc) := by
  intro s
  induction s with
  | nil =>
    intro acc hacc
    cases ha : acc.isEmpty with
    | true => simp [splitWordsAux, ha, AllWords]
    | false =>
      simp only [splitWordsAux, ha, Bool.false_eq_true, if_false]
      intro w hw
      simp only [List.mem_singleton] at hw
      subst hw
      constructor
      · simpa [List.isEmpty_iff] using ha
      · intro c hc
        exact hacc c (by simpa using hc)
  | cons c t ih =>
    intro acc hacc
    cases hc : isSpace c with
    | true =>
      cases ha : acc.isEmpty with
      | true => simpa [splitWordsAux, hc, ha] using ih [] (by simp)
      | false =>
        simp only [splitWordsAux, hc, ha, if_true, Bool.false_eq_true, if_false]
        intro w hw
        rcases List.mem_cons.mp hw with hw | hw
        · subst hw
          constructor
          · simpa [List.isEmpty_iff] using ha
          · intro d hd
            exact hacc d (by simpa using hd)
        · exact ih [] (by simp) w hw
    | false =>
      simp only [splitWordsAux, hc, Bool.false_eq_true, if_false]
      refine ih (c :: acc) ?_
      intro d hd
      rcases List.mem_cons.mp hd with hd | hd
      · subst hd; exact hc
      · exact hacc d hd

theorem splitWords_allWords (s : List Char) : AllWords (splitWords s) :=
  splitWordsAux_allWords s [] (by simp)

theorem sumLen_append (a b : List (List Char)) :
    sumLen (a ++ b) = sumLen a + sumLen b := by
  simp [sumLen]

theorem splitWordsAux_mass :
    ∀ (s acc : List Char), sumLen (splitWordsAux s acc) = acc.length + nonWS s := by
  intro s
  induction s with
  | nil =>
    intro acc
    cases ha : acc.isEmpty with
    | true => simp [splitWordsAux, ha, sumLen, nonWS, List.isEmpty_iff.mp ha]
    | false => simp [splitWordsAux, ha, sumLen, nonWS]
  | cons c t ih =>
    intro acc
    cases hc : isSpace c with
    | true =>
      cases ha : acc.isEmpty with
      | true =>
        simp only [splitWordsAux, hc, ha, if_true]
        rw [ih []]
        simp [nonWS, List.filter_cons, hc, List.isEmpty_iff.mp ha]
      | false =>
        simp only [splitWordsAux, hc, ha, if_true, Bool.false_eq_true, if_false]
        have h1 : sumLen (acc.reverse :: splitWordsAux t []) =
            acc.length + sumLen (splitWordsAux t []) := by
          simp [sumLen]
        rw [h1, ih []]
        simp [nonWS, List.filter_cons, hc]
    | false =>
      simp only [splitWordsAux, hc, Bool.false_eq_true, if_false]
      rw [ih (c :: acc)]
      simp only [List.length_cons, nonWS, List.filter_cons, hc]
      simp
      omega

theorem splitWords_mass (s : List Char) : sumLen (splitWords s) = nonWS s := by
  have := splitWordsAux_mass s []
  simpa [splitWords] using this

/-! ## The seed-rewriting lemma and WC structure lemmas -/

theorem stripped_tail_has_ink {prev : List Char} (k : Nat)
    (hst : strip prev = prev) (hne : prev ≠ []) :
    lstrip (pyTailSlice k prev) ≠ [] := by
  have hx : pyTailSlice k prev ≠ [] := pyTailSlice_ne_nil k hne
  have hlast : (pyTailSlice k prev).getLast? = prev.getLast? := pyTailSlice_getLast? k hne
  obtain ⟨c, hc⟩ : ∃ c, prev.getLast? = some c := by
    cases hp : prev with
    | nil => exact absurd hp hne
    | cons a b => exact ⟨(a :: b).getLast (by simp), List.getLast?_eq_getLast _ _⟩
  have hcs : isSpace c = false :=
    getLast_not_space_of_rstrip_eq_self (strip_eq_self_parts hst).2 c hc
  have hmem : c ∈ pyTailSlice k prev :=
    List.mem_of_mem_getLast? (by rw [hlast, hc]; simp)
  exact lstrip_ne_nil_of_nonWS (nonWS_pos_of_mem hmem hcs)

theorem strip_join_seed {prev : List Char} {ws : List (List Char)} (k : Nat)
    (hst : strip prev = prev) (hne : prev ≠ []) (hws : ws ≠ []) (hw : AllWords ws) :
    strip (joinWords (pyTailSlice k prev :: ws)) =
      lstrip (pyTailSlice k prev) ++ ' ' :: joinWords ws := by
  obtain ⟨b, u, rfl⟩ : ∃ b u, ws = b :: u := by
    cases ws with
    | nil => exact absurd rfl hws
    | cons b u => exact ⟨b, u, rfl⟩
  rw [joinWords_cons₂]
  have hltail : lstrip (pyTailSlice k prev) ≠ [] := stripped_tail_has_ink k hst hne
  have hjoin : joinWords (b :: u) ≠ [] := joinWords_ne_nil (by simp) hw
  have hstep : lstrip (pyTailSlice k prev ++ ' ' :: joinWords (b :: u)) =
      lstrip (pyTailSlice k prev) ++ ' ' :: joinWords (b :: u) :=
    lstrip_append _ hltail
  show rstrip (lstrip _) = _
  rw [hstep]
  apply rstrip_eq_self_of_getLast
  intro c hc
  rw [List.getLast?_append_cons] at hc
  refine joinWords_getLast_not_space hw (by simp) c ?_
  cases hj : joinWords (b :: u) with
  | nil => exact absurd hj hjoin
  | cons x y => rw [hj] at hc; rwa [List.getLast?_cons_cons] at hc

theorem strip_join_cons_ne_nil {x : List Char} {ws : List (List Char)}
    (hws : ws ≠ []) (hw : AllWords ws) : strip (joinWords (x :: ws)) ≠ [] := by
  intro hnil
  have h1 := nonWS_strip (joinWords (x :: ws))
  rw [hnil] at h1
  cases ws with
  | nil => exact hws rfl
  | cons b u =>
    rw [joinWords_cons₂, nonWS_append] at h1
    have hb : IsWord b := hw b (by simp)
    have hj : nonWS (joinWords (b :: u)) = sumLen (b :: u) :=
      nonWS_joinWords (fun w hw' => hw w (by simp [hw']))
    have hsp : nonWS (' ' :: joinWords (b :: u)) = nonWS (joinWords (b :: u)) := by
      simp [nonWS, List.filter_cons, isSpace]
    have hbl : 0 < b.length := List.length_pos.mpr hb.1
    have hsl : sumLen (b :: u) = b.length + sumLen u := by simp [sumLen]
    have h0 : nonWS ([] : List Char) = 0 := rfl
    omega

theorem WC_chunks_ne_nil {k : Nat} {consumed L : List (List Char)}
    (h : WC k consumed L) : ∀ c ∈ L, c ≠ [] := by
  induction h with
  | nil => simp
  | first hne hw =>
    intro c hc
    simp only [List.mem_singleton] at hc
    subst hc
    exact joinWords_ne_nil hne hw
  | snoc prev pre hwc hlast hne hw ih =>
    intro c hc
    rcases List.mem_append.mp hc with hc | hc
    · exact ih c hc
    · simp only [List.mem_singleton] at hc
      subst hc
      exact strip_join_cons_ne_nil hne hw

theorem WC_stripped {k : Nat} {consumed L : List (List Char)}
    (h : WC k consumed L) : ∀ c ∈ L, strip c = c := by
  induction h with
  | nil => simp
  | first hne hw =>
    intro c hc
    simp only [List.mem_singleton] at hc
    subst hc
    exact strip_joinWords hw hne
  | snoc prev pre hwc hlast hne hw ih =>
    intro c hc
    rcases List.mem_append.mp hc with hc | hc
    · exact ih c hc
    · simp only [List.mem_singleton] at hc
      subst hc
      exact strip_idem _

theorem WC_chain {k : Nat} {consumed L : List (List Char)}
    (h : WC k consumed L) : List.Chain' (overlapPre k) L := by
  induction h with
  | nil => simp
  | first hne hw => simp
  | snoc prev pre hwc hlast hne hw ih =>
    rename_i consumed' chunks' ws'
    apply List.chain'_append.mpr
    refine ⟨ih, by simp, ?_⟩
    intro x hx y hy
    rw [hlast, List.getLast?_concat] at hx
    simp only [List.head?_cons, Option.mem_def, Option.some.injEq] at hx hy
    subst hx
    subst hy
    have hprev_mem : prev ∈ chunks' := by rw [hlast]; simp
    have hst : strip prev = prev := WC_stripped hwc prev hprev_mem
    have hpne : prev ≠ [] := WC_chunks_ne_nil hwc prev hprev_mem
    unfold overlapPre
    rw [strip_join_seed k hst hpne hne hw]
    exact List.take_left _ _

theorem injectedOverlap_cons (k : Nat) (x y : List Char) (rest : List (List Char)) :
    injectedOverlap k (x :: y :: rest) =
      (lstrip (pyTailSlice k x)).length + injectedOverlap k (y :: rest) := rfl

theorem injectedOverlap_concat (k : Nat) (l : List (List Char)) (a b : List Char) :
    injectedOverlap k (l ++ [a] ++ [b]) =
      injectedOverlap k (l ++ [a]) + (lstrip (pyTailSlice k a)).length := by
  induction l with
  | nil => simp [injectedOverlap]
  | cons x l ih =>
    cases l with
    | nil =>
      simp only [List.nil_append, List.cons_append, injectedOverlap_cons,
        injectedOverlap] at ih ⊢
      omega
    | cons y l' =>
      simp only [List.cons_append, injectedOverlap_cons] at ih ⊢
      omega

theorem WC_mass {k : Nat} {consumed L : List (List Char)} (h : WC k consumed L) :
    sumLen consumed + injectedOverlap k L ≤ sumLen L := by
  induction h with
  | nil => simp [sumLen, injectedOverlap]
  | first hne hw =>
    rename_i ws
    have := sumLen_le_joinWords_length ws
    simp only [injectedOverlap, sumLen, List.map_cons, List.map_nil, List.sum_cons,
      List.sum_nil] at *
    omega
  | snoc prev pre hwc hlast hne hw ih =>
    rename_i consumed' chunks' ws'
    have hprev_mem : prev ∈ chunks' := by rw [hlast]; simp
    have hst : strip prev = prev := WC_stripped hwc prev hprev_mem
    have hpne : prev ≠ [] := WC_chunks_ne_nil hwc prev hprev_mem
    have hnew : strip (joinWords (pyTailSlice k prev :: ws')) =
        lstrip (pyTailSlice k prev) ++ ' ' :: joinWords ws' :=
      strip_join_seed k hst hpne hne hw
    have hinj : injectedOverlap k (chunks' ++ [strip (joinWords (pyTailSlice k prev :: ws'))]) =
        injectedOverlap k chunks' + (lstrip (pyTailSlice k prev)).length := by
      rw [hlast]
      rw [show (pre ++ [prev]) ++ [strip (joinWords (pyTailSlice k prev :: ws'))] =
        pre ++ [prev] ++ [strip (joinWords (pyTailSlice k prev :: ws'))] from rfl]
      rw [injectedOverlap_concat]
    have hlen : (strip (joinWords (pyTailSlice k prev :: ws'))).length =
        (lstrip (pyTailSlice k prev)).length + 1 + (joinWords ws').length := by
      rw [hnew]
      simp
      omega
    have hjl := sumLen_le_joinWords_length ws'
    rw [sumLen_append, sumLen_append, hinj]
    have hone : sumLen [strip (joinWords (pyTailSlice k prev :: ws'))] =
        (strip (joinWords (pyTailSlice k prev :: ws'))).length := by simp [sumLen]
    rw [hone, hlen]
    omega

/-! ## The loop invariant of chunkLoop -/

theorem chunkLoop_wc (maxC k : Nat) :
    ∀ (ws cur : List (List Char)) (cc : Nat) (out consumed : List (List Char)),
      AllWords ws → LoopInv k consumed cur out →
      WC k (consumed ++ ws) (chunkLoop maxC k ws cur cc out) := by
  intro ws
  induction ws with
  | nil =>
    intro cur cc out consumed _ hinv
    simp only [chunkLoop, List.append_nil]
    rcases hinv with ⟨hcur, hcons, hout⟩ |
      ⟨hout, hcons, hne, hwcur⟩ |
      ⟨done, ws₀, prev, pre, hcons, hwc, hout, hne, hwcur, hcur⟩
    · subst hcur; subst hcons; subst hout
      simpa using WC.nil
    · subst hout
      rw [hcons]
      have hie : cur.isEmpty = false := by simpa [List.isEmpty_iff] using hne
      simp only [hie, Bool.false_eq_true, if_false, List.nil_append]
      rw [strip_joinWords hwcur hne]
      exact WC.first hne hwcur
    · subst hcur; subst hcons
      have hie : (pyTailSlice k prev :: ws₀).isEmpty = false := rfl
      simp only [hie, Bool.false_eq_true, if_false]
      exact WC.snoc prev pre hwc hout hne hwcur
  | cons w ws ih =>
    intro cur cc out consumed hall hinv
    have hword : IsWord w := hall w (by simp)
    have hws : AllWords ws := fun x hx => hall x (by simp [hx])
    have hgoal : consumed ++ w :: ws = (consumed ++ [w]) ++ ws := by simp
    simp only [chunkLoop]
    by_cases hov : maxC < cc + w.length + 1
    · rw [if_pos hov]
      rcases hinv with ⟨hcur, hcons, hout⟩ |
        ⟨hout, hcons, hne, hwcur⟩ |
        ⟨done, ws₀, prev, pre, hcons, hwc, hout, hne, hwcur, hcur⟩
      · -- initial state: the window is empty, the chunk is empty, nothing emitted
        subst hcur; subst hcons; subst hout
        have hch : strip (joinWords []) = [] := rfl
        rw [hch]
        simp only [List.isEmpty_nil, if_true, List.nil_append, List.length_nil]
        refine ih [w] (0 + (w.length + 1)) [] [w] hws ?_
        exact Or.inr (Or.inl ⟨rfl, rfl, by simp, fun x hx => by
          simp only [List.mem_singleton] at hx; subst hx; exact hword⟩)
      · -- fresh window: close it as the first chunk
        subst hout
        rw [hcons]
        have hch : strip (joinWords cur) = joinWords cur := strip_joinWords hwcur hne
        rw [hch]
        have hcne : joinWords cur ≠ [] := joinWords_ne_nil hne hwcur
        have hie : (joinWords cur).isEmpty = false := by
          simpa [List.isEmpty_iff] using hcne
        simp only [hie, Bool.false_eq_true, if_false]
        have htl : pyTailSlice k (joinWords cur) ≠ [] := pyTailSlice_ne_nil k hcne
        have htlie : (pyTailSlice k (joinWords cur)).isEmpty = false := by
          simpa [List.isEmpty_iff] using htl
        simp only [htlie, Bool.false_eq_true, if_false]
        rw [show cur ++ w :: ws = (cur ++ [w]) ++ ws by simp]
        refine ih ([pyTailSlice k (joinWords cur)] ++ [w]) _ ([] ++ [joinWords cur])
          (cur ++ [w]) hws ?_
        refine Or.inr (Or.inr ⟨cur, [w], joinWords cur, [], rfl, ?_, by simp, by simp,
          fun x hx => by simp only [List.mem_singleton] at hx; subst hx; exact hword,
          by simp⟩)
        simpa using WC.first hne hwcur
      · -- seeded window: close it, chain the new chunk to the previous one
        subst hcur; subst hcons
        have hchne : strip (joinWords (pyTailSlice k prev :: ws₀)) ≠ [] :=
          strip_join_cons_ne_nil hne hwcur
        have hie : (strip (joinWords (pyTailSlice k prev :: ws₀))).isEmpty = false := by
          simpa [List.isEmpty_iff] using hchne
        simp only [hie, Bool.false_eq_true, if_false]
        have htl : pyTailSlice k (strip (joinWords (pyTailSlice k prev :: ws₀))) ≠ [] :=
          pyTailSlice_ne_nil k hchne
        have htlie :
            (pyTailSlice k (strip (joinWords (pyTailSlice k prev :: ws₀)))).isEmpty
              = false := by
          simpa [List.isEmpty_iff] using htl
        simp only [htlie, Bool.false_eq_true, if_false]
        have hstep := WC.snoc (k := k) prev pre hwc hout hne hwcur
        rw [show (done ++ ws₀) ++ w :: ws = ((done ++ ws₀) ++ [w]) ++ ws by simp]
        refine ih _ _ _ _ hws ?_
        refine Or.inr (Or.inr ⟨done ++ ws₀, [w],
          strip (joinWords (pyTailSlice k prev :: ws₀)), out, rfl, hstep, rfl, by simp,
          fun x hx => by simp only [List.mem_singleton] at hx; subst hx; exact hword,
          by simp⟩)
    · rw [if_neg hov]
      rw [hgoal]
      refine ih (cur ++ [w]) _ out (consumed ++ [w]) hws ?_
      rcases hinv with ⟨hcur, hcons, hout⟩ |
        ⟨hout, hcons, hne, hwcur⟩ |
        ⟨done, ws₀, prev, pre, hcons, hwc, hout, hne, hwcur, hcur⟩
      · subst hcur; subst hcons; subst hout
        exact Or.inr (Or.inl ⟨rfl, by simp, by simp, fun x hx => by
          simp only [List.nil_append, List.mem_singleton] at hx
          subst hx; exact hword⟩)
      · subst hout
        refine Or.inr (Or.inl ⟨rfl, by rw [hcons], by simp, ?_⟩)
        intro x hx
        rcases List.mem_append.mp hx with hx | hx
        · exact hwcur x hx
        · simp only [List.mem_singleton] at hx; subst hx; exact hword
      · subst hcur; subst hcons
        refine Or.inr (Or.inr ⟨done, ws₀ ++ [w], prev, pre, by simp, hwc, hout,
          by simp, ?_, by simp⟩)
        intro x hx
        rcases List.mem_append.mp hx with hx | hx
        · exact hwcur x hx
        · simp only [List.mem_singleton] at hx; subst hx; exact hword

/-- The chunks of `chunk_text` carry a full window decomposition
certificate over the words of the input. -/
theorem chunk_text_wc (text : List Char) (chunk_tokens overlap : Nat) :
    WC (overlap * 4) (splitWords text) (chunk_text text chunk_tokens overlap) := by
  unfold chunk_text
  by_cases ht : text.isEmpty
  · rw [if_pos ht]
    have : splitWords text = [] := by
      have : text = [] := by simpa [List.isEmpty_iff] using ht
      simp [this, splitWords, splitWordsAux]
    rw [this]
    exact WC.nil
  · rw [if_neg ht]
    have hwc := chunkLoop_wc (chunk_tokens * 4) (overlap * 4) (splitWords text) [] 0 [] []
      (splitWords_allWords text) (Or.inl ⟨rfl, rfl, rfl⟩)
    simp only [List.nil_append] at hwc
    have hne := WC_chunks_ne_nil hwc
    rwa [List.filter_eq_self.mpr]
    intro a ha
    simpa [List.isEmpty_iff] using hne a ha

/-! ## Claim C6: word-window overlap prefix -/

/-- C6 counterexample: in word-window mode with `chunk_tokens = 2` and
`overlap = 1` (so `overlap_chars = 4`), the input `abc def gh ij kl`
produces four chunks, and the prefix of chunk 1 (which exists and is not
the final partial window) differs from the trailing four characters of
chunk 0: the trailing slice ` def` starts with a space that is stripped
when the next window is joined, so the prefix reads `def ` instead. -/
theorem chunk_overlap_prefix_cex :
    chunk_text "abc def gh ij kl".data 2 1 =
      ["abc def".data, "def gh".data, "f gh ij".data, "h ij kl".data] ∧
    ((chunk_text "abc def gh ij kl".data 2 1).getD 1 []).take (1 * 4) ≠
      pyTailSlice (1 * 4) ((chunk_text "abc def gh ij kl".data 2 1).getD 0 []) := by
  constructor
  · decide
  · decide

/-- C6 amended: for every input and every pair of consecutive chunks
emitted in word-window mode, the later chunk's prefix equals the trailing
`overlap_chars = overlap × 4` characters of the earlier chunk after
removing leading whitespace (the seed is whitespace-stripped when the next
window is joined, so a seed that begins mid-run may lose a leading
space). -/
theorem chunk_overlap_prefix_lstrip (text : List Char) (chunk_tokens overlap : Nat) :
    List.Chain' (overlapPre (overlap * 4)) (chunk_text text chunk_tokens overlap) :=
  WC_chain (chunk_text_wc text chunk_tokens overlap)

/-! ## Claim C2: no content loss -/

/-- C2 counterexample: in heading-aware mode the heading line's text is
recorded as metadata, not body text, so the document `# A` + newline + `b`
(three non-whitespace characters) yields a single chunk whose body is the
one character `b`; no subtraction of injected overlap can repair a total
that is already below the non-whitespace count. -/
theorem heading_mode_content_loss_cex :
    split_markdown_to_chunks "# A\nb".data "f.md".data =
      [⟨"f.md".data, "A".data, [], "b".data⟩] ∧
    sumLen ((split_markdown_to_chunks "# A\nb".data "f.md".data).map MDChunk.text) <
      nonWS "# A\nb".data := by
  constructor
  · decide
  · decide

/-- C2 amended: in word-window mode no content is lost - the total
character count of the chunks minus the injected overlap (the
whitespace-stripped seed of every later chunk) is at least the
non-whitespace character count of the document.  In heading-aware mode the
bound fails because heading lines are captured as metadata, not body
text. -/
theorem word_window_no_content_loss (text : List Char) (chunk_tokens overlap : Nat) :
    nonWS text ≤
      sumLen (chunk_text text chunk_tokens overlap) -
        injectedOverlap (overlap * 4) (chunk_text text chunk_tokens overlap) := by
  have h := WC_mass (chunk_text_wc text chunk_tokens overlap)
  rw [splitWords_mass] at h
  omega

/-! ## Claim C3: dedup cap and order preservation -/

theorem dedupeAux_sublist (cap : Nat) :
    ∀ (hits : List HitRec) (bucket : List Char → Nat),
      List.Sublist (dedupeAux cap hits bucket) hits := by
  intro hits
  induction hits with
  | nil => intro bucket; simp [dedupeAux]
  | cons h hs ih =>
    intro bucket
    simp only [dedupeAux]
    by_cases hn : bucket (srcOf h) < cap
    · rw [if_pos hn]
      exact (ih _).cons₂ h
    · rw [if_neg hn]
      exact (ih _).cons h

theorem dedupeAux_count (cap : Nat) :
    ∀ (hits : List HitRec) (bucket : List Char → Nat) (s : List Char),
      ((dedupeAux cap hits bucket).countP (fun h => srcOf h == s)) ≤
        cap - bucket s := by
  intro hits
  induction hits with
  | nil => intro bucket s; simp [dedupeAux]
  | cons h hs ih =>
    intro bucket s
    simp only [dedupeAux]
    by_cases hn : bucket (srcOf h) < cap
    · rw [if_pos hn]
      rw [List.countP_cons]
      by_cases hsrc : srcOf h = s
      · subst hsrc
        have hthis := ih (fun s' => if s' = srcOf h then bucket (srcOf h) + 1
          else bucket s') (srcOf h)
        simp at hthis
        simp only [beq_self_eq_true, if_true]
        omega
      · have hthis := ih (fun s' => if s' = srcOf h then bucket (srcOf h) + 1
          else bucket s') s
        rw [if_neg (fun he => hsrc he.symm)] at hthis
        have hps : (srcOf h == s) = false := by simpa using hsrc
        simp only [hps, Bool.false_eq_true, if_false]
        omega
    · rw [if_neg hn]
      exact ih bucket s

/-- C3: for every hit list and every cap, deduplication returns a
rank-order-preserving subsequence (a sublist) of the input containing at
most `cap` hits per source key. -/
theorem dedupe_cap_and_order (hits : List HitRec) (cap : Nat) :
    List.Sublist (dedupe_by_source hits cap) hits ∧
    ∀ s : List Char,
      ((dedupe_by_source hits cap).countP (fun h => srcOf h == s)) ≤ cap := by
  constructor
  · exact dedupeAux_sublist cap hits _
  · intro s
    have := dedupeAux_count cap hits (fun _ => 0) s
    simpa [dedupe_by_source] using this

/-! ## Claim C5: prompt assembly -/

theorem sumLen_cons (x : List Char) (l : List (List Char)) :
    sumLen (x :: l) = x.length + sumLen l := by
  simp [sumLen]

theorem renderedFrom_length (i : Nat) (cs : List HitRec) :
    (renderedFrom i cs).length = cs.length := by
  induction cs generalizing i with
  | nil => rfl
  | cons c t ih => simp [renderedFrom, ih]

theorem joinSep_cons_decomp (sep x : List Char) (t : List (List Char)) :
    ∃ q, joinSep sep (x :: t) = x ++ q := by
  cases t with
  | nil => exact ⟨[], by simp [joinSep]⟩
  | cons y u => exact ⟨sep ++ joinSep sep (y :: u), by simp [joinSep]⟩

theorem promptBlocksAux_spec (maxCtx : Nat) :
    ∀ (cs : List HitRec) (i total : Nat) (blocks : List (List Char)),
      ∃ m, promptBlocksAux maxCtx cs i total blocks =
          blocks ++ (renderedFrom i cs).take m ∧
        (blocks = [] → cs ≠ [] → 1 ≤ m) ∧
        (∀ j, j < m → (blocks ≠ [] ∨ 1 ≤ j) →
          total + sumLen ((renderedFrom i cs).take (j + 1)) ≤ maxCtx) ∧
        (m < cs.length →
          maxCtx < total + sumLen ((renderedFrom i cs).take (m + 1))) := by
  intro cs
  induction cs with
  | nil =>
    intro i total blocks
    refine ⟨0, by simp [promptBlocksAux, renderedFrom], ?_, ?_, ?_⟩
    · intro _ hne; exact absurd rfl hne
    · intro j hj _; omega
    · intro hm; simp at hm
  | cons c cs' ih =>
    intro i total blocks
    simp only [promptBlocksAux]
    by_cases hbr : maxCtx < total + (renderBlock i c).length ∧ blocks ≠ []
    · rw [if_pos hbr]
      refine ⟨0, by simp, ?_, ?_, ?_⟩
      · intro hb _; exact absurd hb hbr.2
      · intro j hj _; omega
      · intro _
        have h1 : sumLen ((renderedFrom i (c :: cs')).take 1) =
            (renderBlock i c).length := by
          simp [renderedFrom, sumLen]
        rw [h1]
        exact hbr.1
    · rw [if_neg hbr]
      obtain ⟨m', heq, h2, h3, h4⟩ :=
        ih (i + 1) (total + (renderBlock i c).length) (blocks ++ [renderBlock i c])
      refine ⟨m' + 1, ?_, ?_, ?_, ?_⟩
      · rw [heq]
        simp [renderedFrom, List.append_assoc]
      · intro _ _; omega
      · intro j hj hcond
        cases j with
        | zero =>
          have hbne : blocks ≠ [] := by
            rcases hcond with hb | hb
            · exact hb
            · omega
          have hle : total + (renderBlock i c).length ≤ maxCtx := by
            by_contra hlt
            exact hbr ⟨by omega, hbne⟩
          have h1 : sumLen ((renderedFrom i (c :: cs')).take 1) =
              (renderBlock i c).length := by
            simp [renderedFrom, sumLen]
          rw [h1]
          exact hle
        | succ j' =>
          have hj' : j' < m' := by omega
          have := h3 j' hj' (Or.inl (by simp))
          have h1 : sumLen ((renderedFrom i (c :: cs')).take (j' + 1 + 1)) =
              (renderBlock i c).length +
                sumLen ((renderedFrom (i + 1) cs').take (j' + 1)) := by
            simp [renderedFrom, sumLen_cons]
          rw [h1]
          omega
      · intro hm
        simp only [List.length_cons] at hm
        have := h4 (by omega)
        have h1 : sumLen ((renderedFrom i (c :: cs')).take (m' + 1 + 1)) =
            (renderBlock i c).length +
              sumLen ((renderedFrom (i + 1) cs').take (m' + 1)) := by
          simp [renderedFrom, sumLen_cons]
        rw [h1]
        omega

/-- C5: the accepted block list always begins with the rendering of the
first hit (even when the budget is smaller than that block), every later
accepted block keeps the running total within the budget, accumulation
stops exactly when the next block would overflow, and the assembled prompt
contains the first block. -/
theorem build_prompt_first_block_guarantee (question : List Char)
    (contexts : List HitRec) (maxCtx : Nat) (h : contexts ≠ []) :
    (promptBlocks maxCtx contexts).head? =
      some (renderBlock 1 (contexts.head h)) ∧
    List.IsPrefix (promptBlocks maxCtx contexts) (renderedFrom 1 contexts) ∧
    (∀ j, 1 ≤ j → j < (promptBlocks maxCtx contexts).length →
      sumLen ((promptBlocks maxCtx contexts).take (j + 1)) ≤ maxCtx) ∧
    ((promptBlocks maxCtx contexts).length < contexts.length →
      maxCtx < sumLen ((renderedFrom 1 contexts).take
        ((promptBlocks maxCtx contexts).length + 1))) ∧
    ∃ pre post, build_prompt question contexts maxCtx =
      pre ++ renderBlock 1 (contexts.head h) ++ post := by
  obtain ⟨c, cs, rfl⟩ : ∃ c cs, contexts = c :: cs := by
    cases contexts with
    | nil => exact absurd rfl h
    | cons c cs => exact ⟨c, cs, rfl⟩
  obtain ⟨m, heq, h2, h3, h4⟩ := promptBlocksAux_spec maxCtx (c :: cs) 1 0 []
  have hm : 1 ≤ m := h2 rfl (by simp)
  have hblocks : promptBlocks maxCtx (c :: cs) =
      (renderedFrom 1 (c :: cs)).take m := by
    simpa [promptBlocks] using heq
  have hhead : (promptBlocks maxCtx (c :: cs)).head? = some (renderBlock 1 c) := by
    rw [hblocks]
    cases m with
    | zero => omega
    | succ m' => simp [renderedFrom]
  have hlen : (promptBlocks maxCtx (c :: cs)).length =
      min m (cs.length + 1) := by
    rw [hblocks, List.length_take, renderedFrom_length]
    simp
  refine ⟨hhead, ?_, ?_, ?_, ?_⟩
  · rw [hblocks]; exact List.take_prefix m _
  · intro j hj1 hjlen
    have hjm : j < m := by
      rw [hlen] at hjlen
      omega
    have := h3 j hjm (Or.inr hj1)
    simp only [Nat.zero_add] at this
    rw [hblocks, List.take_take]
    have : min (j + 1) m = j + 1 := by omega
    rw [this]
    have h0 := h3 j hjm (Or.inr hj1)
    omega
  · intro hlt
    rw [hlen] at hlt
    simp only [List.length_cons] at hlt
    have hmlt : m < cs.length + 1 := by omega
    have heqm : min m (cs.length + 1) = m := by omega
    have := h4 (by simpa using hmlt)
    rw [hlen, heqm]
    omega
  · obtain ⟨q, hq⟩ := joinSep_cons_decomp "\n\n---\n\n".data (renderBlock 1 c)
      ((renderedFrom 2 cs).take (m - 1))
    refine ⟨instrText ++ "\nContext:\n".data,
      q ++ "\n\nQuestion: ".data ++ question ++ "\n\nAnswer:".data, ?_⟩
    have hb2 : promptBlocks maxCtx (c :: cs) =
        renderBlock 1 c :: (renderedFrom 2 cs).take (m - 1) := by
      rw [hblocks]
      cases m with
      | zero => omega
      | succ m' => simp [renderedFrom]
    simp only [build_prompt, hb2, hq, List.head_cons, List.append_assoc]

/-- Witness for C5: with a context budget of zero the single block, longer
than the whole budget, is still accepted as the first block. -/
theorem build_prompt_first_block_guarantee_witness :
    (([(⟨none, none, none, none, "hi".data⟩ : HitRec)]) ≠ ([] : List HitRec)) ∧
    (promptBlocks 0 [(⟨none, none, none, none, "hi".data⟩ : HitRec)]).head? =
      some (renderBlock 1
        (([(⟨none, none, none, none, "hi".data⟩ : HitRec)]).head (by decide))) :=
  ⟨by decide,
   (build_prompt_first_block_guarantee "q".data
     [(⟨none, none, none, none, "hi".data⟩ : HitRec)] 0 (by decide)).1⟩

/-! ## Claim C4: dimension checking -/

/-- C4 counterexample: the web search route performs no dimension check of
its own - a 2-column query against a 3-dimensional index surfaces only the
library's bare assertion, whose message contains no digits, hence names
neither dimension. -/
theorem web_route_dim_mismatch_cex :
    webRouteSearch ⟨3, [[1, 0, 0]]⟩ ⟨[[1, 2]], 2⟩ 8 =
      Except.error "AssertionError".data ∧
    ("AssertionError".data.any Char.isDigit) = false := by
  constructor
  · rfl
  · rfl

/-- C4 amended: in the CLI retrieval path (SUPPORT/ask.py `search`) a
dimension mismatch raises an error whose message names both the query and
the index dimension, and matching dimensions proceed to the inner-product
search; the web route (SUPPORT/web.py) has no dimension check of its own
and delegates directly to the library. -/
theorem dimension_check_by_path (ix : FaissIndex) (q : NDMat) (k : Nat) :
    (q.cols ≠ ix.d →
      search ix q k = Except.error (dimMsg q.cols ix.d) ∧
      ∃ a b e, dimMsg q.cols ix.d = a ++ natStr q.cols ++ b ++ natStr ix.d ++ e) ∧
    (q.cols = ix.d →
      search ix q k = Except.ok (ipTopK ix (q.rows.headD []) k) ∧
      webRouteSearch ix q k = Except.ok (ipTopK ix (q.rows.headD []) k)) := by
  constructor
  · intro hne
    refine ⟨by simp [search, hne], ?_⟩
    exact ⟨"Query embedding dim ".data, " != index dim ".data,
      ". Check EMBED_MODEL; it must match the model used to build the index.".data,
      by simp [dimMsg, List.append_assoc]⟩
  · intro heq
    constructor
    · simp [search, webRouteSearch, faissLibSearch, heq]
    · simp [webRouteSearch, faissLibSearch, heq]

/-- Witness for C4: both branches of the amended theorem evaluated at
concrete mismatching and matching inputs. -/
theorem dimension_check_by_path_witness :
    ((2 : Nat) ≠ 3 ∧
      search ⟨3, [[1, 0, 0]]⟩ ⟨[[1, 2]], 2⟩ 8 = Except.error (dimMsg 2 3)) ∧
    ((2 : Nat) = 2 ∧
      search ⟨2, []⟩ ⟨[[1, 2]], 2⟩ 8 =
        Except.ok (ipTopK ⟨2, []⟩ ((([[1, 2]] : List (List ℚ))).headD []) 8)) :=
  ⟨⟨by decide,
    ((dimension_check_by_path ⟨3, [[1, 0, 0]]⟩ ⟨[[1, 2]], 2⟩ 8).1 (by decide)).1⟩,
   ⟨rfl,
    ((dimension_check_by_path ⟨2, []⟩ ⟨[[1, 2]], 2⟩ 8).2 rfl).1⟩⟩

/-! ## Claim C7: defensive bounds check -/

/-- C7: for every position list (including out-of-range and negative
positions) and every corpus, hit collection never raises an indexing
error: it returns exactly the records at the in-range positions, skipping
the rest silently. -/
theorem collect_hits_never_out_of_bounds (positions : List ℤ)
    (corpus : List HitRec) :
    collectHits positions corpus = Except.ok (collectHitsSafe positions corpus) := by
  induction positions with
  | nil => rfl
  | cons pos rest ih =>
    by_cases hout : pos < 0 ∨ (corpus.length : ℤ) ≤ pos
    · rw [collectHits, if_pos hout, ih]
      have : collectHitsSafe (pos :: rest) corpus = collectHitsSafe rest corpus := by
        unfold collectHitsSafe
        rw [List.filterMap_cons]
        have : ¬(0 ≤ pos ∧ pos < (corpus.length : ℤ)) := by omega
        rw [if_neg this]
      rw [this]
    · rw [collectHits, if_neg hout]
      push_neg at hout
      obtain ⟨h0, hlt⟩ := hout
      have hnat : pos.toNat < corpus.length := by omega
      have hget : corpus.get? pos.toNat = some (corpus.get ⟨pos.toNat, hnat⟩) :=
        List.get?_eq_get hnat
      have hpy : pyIndex corpus pos =
          Except.ok (corpus.get ⟨pos.toNat, hnat⟩) := by
        unfold pyIndex
        have hneg : ¬pos < 0 := by omega
        rw [if_neg hneg]
        rw [if_pos ⟨h0, hlt⟩, hget]
      rw [hpy]
      have hsafe : collectHitsSafe (pos :: rest) corpus =
          mkHit (corpus.get ⟨pos.toNat, hnat⟩) :: collectHitsSafe rest corpus := by
        unfold collectHitsSafe
        rw [List.filterMap_cons]
        rw [if_pos ⟨h0, hlt⟩, hget]
        rfl
      rw [hsafe]
      simp only [hpy, ih]
      rfl

/-! ## Claim C8: artifact loading -/

theorem fileExists_faiss (d : IndexDir) :
    fileExists d "chunks.faiss".data = d.hasFaiss := rfl

theorem fileExists_corpus (d : IndexDir) :
    fileExists d "corpus.jsonl".data = d.hasCorpus := rfl

/-- C8: loading fails with an error whose message names the absent
artifact when chunks.faiss or corpus.jsonl is missing; when both exist the
(index, corpus) pair is returned - a corpus/ntotal size difference only
sets the warning flag, it never fails the load. -/
theorem load_index_missing_and_mismatch (d : IndexDir) :
    (d.hasFaiss = false →
      ∃ pre post, load_index_and_corpus d =
        Except.error (pre ++ "chunks.faiss".data ++ post)) ∧
    (d.hasCorpus = false →
      ∃ pre post, load_index_and_corpus d =
        Except.error (pre ++ "corpus.jsonl".data ++ post)) ∧
    (d.hasFaiss = true → d.hasCorpus = true →
      load_index_and_corpus d =
        Except.ok (d.faissIndex, d.corpusLines.filterMap id,
          (d.corpusLines.filterMap id).length != d.faissIndex.ntotal)) := by
  obtain ⟨nm, hfB, hcB, fi, cl⟩ := d
  cases hfB with
  | false =>
    cases hcB with
    | false =>
      refine ⟨fun _ => ?_, fun _ => ?_, fun h _ => by simp at h⟩
      · exact ⟨"Missing files in ".data ++ nm ++ ": ".data, ", corpus.jsonl".data, by
          simp [load_index_and_corpus, ensure_files, requiredFiles, fileExists,
            joinSep, List.append_assoc]⟩
      · exact ⟨"Missing files in ".data ++ nm ++ ": chunks.faiss, ".data, [], by
          simp [load_index_and_corpus, ensure_files, requiredFiles, fileExists,
            joinSep, List.append_assoc]⟩
    | true =>
      refine ⟨fun _ => ?_, fun h => by simp at h, fun h _ => by simp at h⟩
      exact ⟨"Missing files in ".data ++ nm ++ ": ".data, [], by
        simp [load_index_and_corpus, ensure_files, requiredFiles, fileExists,
          joinSep, List.append_assoc]⟩
  | true =>
    cases hcB with
    | false =>
      refine ⟨fun h => by simp at h, fun _ => ?_, fun _ h => by simp at h⟩
      exact ⟨"Missing files in ".data ++ nm ++ ": ".data, [], by
        simp [load_index_and_corpus, ensure_files, requiredFiles, fileExists,
          joinSep, List.append_assoc]⟩
    | true =>
      refine ⟨fun h => by simp at h, fun h => by simp at h, fun _ _ => ?_⟩
      simp [load_index_and_corpus, ensure_files, requiredFiles, fileExists]

/-- Witness for C8: the sample directory misses chunks.faiss and loading
reports it by name. -/
theorem load_index_missing_and_mismatch_witness :
    (sampleBrokenDir.hasFaiss = false) ∧
    ∃ pre post, load_index_and_corpus sampleBrokenDir =
      Except.error (pre ++ "chunks.faiss".data ++ post) :=
  ⟨rfl, (load_index_missing_and_mismatch sampleBrokenDir).1 rfl⟩

/-! ## Claim C9: the try/except boundary of ask_question -/

/-- C9: every error raised inside the body of ask_question (artifact
loading, query embedding, search, answer generation) is caught and
returned as a structured error result, and a body that returns normally is
passed through unchanged - the caller never sees a raised exception. -/
theorem ask_question_catches_errors (env : AskEnv) (project question : List Char)
    (topk cap : Nat) :
    (∀ e, askBody env project question topk cap = Except.error e →
      ask_question env project question topk cap = AskResult.err e) ∧
    (∀ r, askBody env project question topk cap = Except.ok r →
      ask_question env project question topk cap = r) := by
  constructor
  · intro e he
    simp [ask_question, he]
  · intro r hr
    simp [ask_question, hr]

/-- Witness for C9: in the sample environment the artifact check raises,
and ask_question returns the structured error dictionary. -/
theorem ask_question_catches_errors_witness :
    (askBody sampleEnv "p".data "q".data 8 2 =
      Except.error "Missing files in d: chunks.faiss".data) ∧
    ask_question sampleEnv "p".data "q".data 8 2 =
      AskResult.err "Missing files in d: chunks.faiss".data :=
  ⟨rfl,
   (ask_question_catches_errors sampleEnv "p".data "q".data 8 2).1 _ rfl⟩

/-! ## Claim C10: empty embedding input -/

/-- C10: embedding an empty list of texts returns the 0-row, 1-column
zero matrix, identically for every transport - so no network request is
involved and the recorded column count is 1 regardless of the embedding
model's true dimension. -/
theorem embed_empty_input_shape (net net' : List (List Char) → EmbedResp) :
    ollama_embed_texts net [] = Except.ok ⟨[], 1⟩ ∧
    ollama_embed_texts net [] = ollama_embed_texts net' [] :=
  ⟨rfl, rfl⟩

/-! ## Claim C1: normalization policy -/

/-- C1 counterexample: the SUPPORT builder appends the embedding row
[3, 4] to the inner-product index exactly as returned, which differs from
the same row under the spec's normalize-with-epsilon policy, since
3 / (5 + 1e-12) ≠ 3. -/
theorem regard_rows_not_normalized_cex :
    regardBuildRows [[3, 4]] ≠ [[3, 4]].map (specNormalizeRow (1 / 10 ^ 12)) := by
  intro h
  have hn : l2norm [3, 4] = 5 := by
    unfold l2norm
    norm_num
    rw [show (25 : ℝ) = 5 ^ 2 by norm_num]
    exact Real.sqrt_sq (by norm_num)
  simp only [regardBuildRows, List.map_cons, List.map_nil, specNormalizeRow,
    List.cons.injEq, and_true] at h
  rw [hn] at h
  have h3 : (3 : ℝ) = 3 / (5 + 1 / 10 ^ 12) := h.1
  have hden : (5 : ℝ) + 1 / 10 ^ 12 ≠ 0 := by positivity
  field_simp at h3
  norm_num at h3

/-- C1 amended: the SQL pipeline build (build_query.py) L2-normalizes each
row with epsilon 1e-12 - exactly the spec's per-row policy - while the
SUPPORT pipeline build (build_regard.py) appends the raw rows unchanged,
and the SUPPORT query path (ask.py search) hands the query vector to the
inner-product search without normalizing it. -/
theorem normalization_policy_by_pipeline (X : List (List ℝ)) :
    queryBuildRows X = X.map (specNormalizeRow (1 / 10 ^ 12)) ∧
    regardBuildRows X = X ∧
    ∀ (ix : FaissIndex) (q : NDMat) (k : Nat), q.cols = ix.d →
      search ix q k = Except.ok (ipTopK ix (q.rows.headD []) k) := by
  refine ⟨rfl, rfl, ?_⟩
  intro ix q k heq
  simp [search, faissLibSearch, heq]

/-- Witness for C1: the matching-dimension branch evaluated at a concrete
index and query. -/
theorem normalization_policy_by_pipeline_witness :
    ((2 : Nat) = 2) ∧
    search ⟨2, [[1, 0]]⟩ ⟨[[1, 2]], 2⟩ 1 =
      Except.ok (ipTopK ⟨2, [[1, 0]]⟩ [1, 2] 1) :=
  ⟨rfl,
   (normalization_policy_by_pipeline []).2.2 ⟨2, [[1, 0]]⟩ ⟨[[1, 2]], 2⟩ 1 rfl⟩

end Support
